import Mathlib

/-!
# Verification of the form-generator core

Shallow embedding of the core of the `form-generator` repository:

* `validateFields` / `validateConfig` — the identifier validation loop of
  `load_config` (src/config.rs);
* `widget` — `FieldDef::widget` (src/handlers.rs);
* `processFields` / `normalizeAnswers` — the answer-normalization part of the
  `submit` handler (src/handlers.rs);
* `readStep` / `fsWrite` / `appendSubmission` — the read-modify-write append
  performed by `submit` under the file lock (src/handlers.rs), with the file
  system and the serde codec made explicit;
* `stepTask` / `runSched` — an interleaving semantics for several concurrent
  `submit` requests sharing the file lock (a tokio `Mutex`).

Strings are modelled as `List Char`; Rust's `str::trim` is modelled with the
Unicode `White_Space` set used by `char::is_whitespace`.
-/

namespace FormGen

/-- Strings as lists of characters. -/
abbrev Str := List Char

/-- Code points with the Unicode `White_Space` property, as recognised by
Rust's `char::is_whitespace`. -/
def wsCodepoints : List Nat :=
  [0x09, 0x0A, 0x0B, 0x0C, 0x0D, 0x20, 0x85, 0xA0, 0x1680,
   0x2000, 0x2001, 0x2002, 0x2003, 0x2004, 0x2005, 0x2006, 0x2007,
   0x2008, 0x2009, 0x200A, 0x2028, 0x2029, 0x202F, 0x205F, 0x3000]

/-- Rust's `char::is_whitespace`. -/
def rustIsWhitespace (c : Char) : Bool :=
  wsCodepoints.contains c.toNat

/-- Rust's `str::trim`: remove leading and trailing whitespace. -/
def trimStr (s : Str) : Str :=
  ((s.dropWhile rustIsWhitespace).reverse.dropWhile rustIsWhitespace).reverse

/-- `FieldDef` from src/handlers.rs. -/
structure FieldDef where
  name : Str
  title : Str
  description : Str
  answer_type : Str
  html_before : Option Str
  html_after : Option Str
  options : Option (List Str)
deriving DecidableEq, Repr

/-- `AppConfig` from src/handlers.rs. -/
structure AppConfig where
  json_output : Option Str
  form_title : Str
  submit_button : Str
  fields : List FieldDef
deriving DecidableEq, Repr

/-- The two `anyhow::bail!` cases of the validation loop in `load_config`
(src/config.rs). -/
inductive ConfigError where
  | emptyName : ConfigError
  | duplicateName (name : Str) : ConfigError
deriving DecidableEq, Repr

/-- The validation loop of `load_config` (src/config.rs): iterate the fields
in order; bail if the trimmed name is empty; bail if the (untrimmed) name was
already inserted into the `seen` set; otherwise insert it and continue.  The
`HashSet` is modelled as the list of names inserted so far. -/
def validateFields (seen : List Str) : List FieldDef → Except ConfigError Unit
  | [] => .ok ()
  | f :: fs =>
    if (trimStr f.name).isEmpty then .error .emptyName
    else if f.name ∈ seen then .error (.duplicateName f.name)
    else validateFields (f.name :: seen) fs

/-- `load_config` after deserialization (src/config.rs): run the validation
loop and return the configuration unchanged on success. -/
def validateConfig (cfg : AppConfig) : Except ConfigError AppConfig :=
  match validateFields [] cfg.fields with
  | .ok () => .ok cfg
  | .error e => .error e

/-- `FieldWidget` from src/handlers.rs. -/
inductive FieldWidget where
  | Checkbox : FieldWidget
  | Textarea : FieldWidget
  | Select (opts : List Str) : FieldWidget
  | Input (hint : Str) : FieldWidget
deriving DecidableEq, Repr

/-- `FieldDef::widget` (src/handlers.rs): match on `answer_type`;
`"select"` reads `options`, defaulting to the empty slice; any other string
becomes a text input carrying that string. -/
def widget (f : FieldDef) : FieldWidget :=
  if f.answer_type = "checkbox".toList then .Checkbox
  else if f.answer_type = "textarea".toList then .Textarea
  else if f.answer_type = "select".toList then .Select (f.options.getD [])
  else .Input f.answer_type

/-- Constructor discriminator of a `FieldWidget` (its widget kind). -/
def widgetKindIndex : FieldWidget → Nat
  | .Checkbox => 0
  | .Textarea => 1
  | .Select _ => 2
  | .Input _ => 3

/-- `HashMap` lookup, on an association list. -/
def lookupA (k : Str) : List (Str × β) → Option β
  | [] => none
  | (k', v) :: rest => if k' = k then some v else lookupA k rest

/-- `HashMap::remove`, on an association list. -/
def removeA (k : Str) (m : List (Str × β)) : List (Str × β) :=
  m.filter (fun p => !(p.1 = k : Bool))

/-- `HashMap::insert`, on an association list: overwrite the entry if the key
is present, otherwise append a new entry. -/
def insertA (k : Str) (v : β) : List (Str × β) → List (Str × β)
  | [] => [(k, v)]
  | (k', v') :: rest => if k' = k then (k, v) :: rest else (k', v') :: insertA k v rest

/-- `.map(|s| s.trim().to_string()).filter(|s| !s.is_empty())` applied to the
raw lookup result (src/handlers.rs, `submit`). -/
def normValue (o : Option Str) : Option Str :=
  (o.map trimStr).filter (fun s => !s.isEmpty)

/-- First loop of `submit` (src/handlers.rs): for each declared field, remove
its name from the raw form map, trim and empty-filter the value, and insert it
into `processed_answers` under the field's name.  Returns the accumulated
answers and the remaining raw pairs. -/
def processFields : List FieldDef → List (Str × Str) → List (Str × Option Str) →
    List (Str × Option Str) × List (Str × Str)
  | [], form, acc => (acc, form)
  | f :: fs, form, acc =>
    processFields fs (removeA f.name form)
      (insertA f.name (normValue (lookupA f.name form)) acc)

/-- The answer map built by `submit` (src/handlers.rs): process the declared
fields first, then insert every remaining raw pair, trimmed and
empty-filtered, under its raw key. -/
def normalizeAnswers (fields : List FieldDef) (form : List (Str × Str)) :
    List (Str × Option Str) :=
  ((processFields fields form []).2).foldl
    (fun a kv => insertA kv.1 (normValue (some kv.2)) a)
    (processFields fields form []).1

/-! ## The append store (`submit`'s read-modify-write, src/handlers.rs)

The store file is modelled explicitly: `FileState β` is the observable state
of the file at `output_file` (absent, unreadable, or holding raw content of
type `List β`), the serde codec is a pair of parameters `parse`/`serialize`,
and the outcome of the `std::fs::write` system call is an explicit
`WriteOutcome` parameter of each call. -/

/-- The errors `submit` reports to the HTTP caller as 500 responses. -/
inductive StoreError where
  | readError : StoreError
  | writeError : StoreError
deriving DecidableEq, Repr

/-- The observable state of the store file.  `unreadable` is a file that
exists but whose read fails with an error other than `NotFound`. -/
inductive FileState (β : Type) where
  | absent : FileState β
  | unreadable : FileState β
  | content (raw : List β) : FileState β
deriving DecidableEq, Repr

/-- The read step of `submit` (src/handlers.rs): `std::fs::read_to_string`
followed by the `match` — a parse failure falls back to `Vec::new()`, a
missing file starts from `Vec::new()`, any other read error aborts with a
store error. -/
def readStep (parse : List β → Option (List α)) :
    FileState β → Except StoreError (List α)
  | .absent => .ok []
  | .unreadable => .error .readError
  | .content raw => .ok ((parse raw).getD [])

/-- Outcome of one `std::fs::write` call, chosen by the environment:
`success`; `failOpen` (the `File::create` inside `std::fs::write` fails, the
file is untouched); `failAfter n` (`File::create` truncated the file and the
subsequent write stopped after `n` elements, e.g. on a full disk). -/
inductive WriteOutcome where
  | success : WriteOutcome
  | failOpen : WriteOutcome
  | failAfter (n : Nat) : WriteOutcome
deriving DecidableEq, Repr

/-- `std::fs::write path c` (truncate, then write all of `c`): returns the
resulting file state and whether the call succeeded. -/
def fsWrite (c : List β) : WriteOutcome → FileState β → FileState β × Bool
  | .success, _ => (.content c, true)
  | .failOpen, s => (s, false)
  | .failAfter n, _ => (.content (c.take n), false)

/-- The body of `submit` executed under the file lock (src/handlers.rs):
read the existing entries (`readStep`), push the new entry, serialize the
whole sequence and rewrite the file.  Returns the new file state and the
operation's result. -/
def appendSubmission (parse : List β → Option (List α)) (serialize : List α → List β)
    (w : WriteOutcome) (s : FileState β) (entry : α) :
    FileState β × Except StoreError Unit :=
  match readStep parse s with
  | .error e => (s, .error e)
  | .ok existing =>
    match fsWrite (serialize (existing ++ [entry])) w s with
    | (s', true) => (s', .ok ())
    | (s', false) => (s', .error .writeError)

/-! ## Interleaving semantics for concurrent `submit` requests

Each in-flight request is a task running the locked section of `submit`:
acquire `state.file_lock`, read the file, write the file (releasing the lock
when the handler returns).  The read and the write are separate atomic steps;
the tokio `Mutex` is modelled by the `lock` component, which a task must hold
to perform them.  A schedule is an arbitrary list of task ids; a scheduled
task takes its next enabled step, or does nothing if it is blocked on the
lock or already finished.  All writes succeed (`WriteOutcome.success`). -/

/-- The control point of one in-flight `submit` request. -/
inductive Phase (α : Type) where
  | ready : Phase α
  | acquired : Phase α
  | readDone (l : List α) : Phase α
  | doneOk : Phase α
  | doneErr : Phase α
deriving DecidableEq, Repr

/-- Global state of `n` concurrent `submit` requests sharing one store file
and one file lock. -/
structure GState (β α : Type) (n : Nat) where
  file : FileState β
  lock : Option (Fin n)
  tasks : Fin n → Phase α

/-- One step of task `i`: acquire the free lock; or, holding the lock, run
the read step (failing the request on a read error); or, holding the lock
after a successful read, write the extended sequence and release the lock. -/
def stepTask (parse : List β → Option (List α)) (serialize : List α → List β)
    (records : Fin n → α) (g : GState β α n) (i : Fin n) : GState β α n :=
  match g.tasks i with
  | .ready =>
    match g.lock with
    | none => { g with lock := some i,
                       tasks := fun j => if j = i then .acquired else g.tasks j }
    | some _ => g
  | .acquired =>
    if g.lock = some i then
      match readStep parse g.file with
      | .error _ => { g with lock := none,
                             tasks := fun j => if j = i then .doneErr else g.tasks j }
      | .ok l => { g with tasks := fun j => if j = i then .readDone l else g.tasks j }
    else g
  | .readDone l =>
    if g.lock = some i then
      { file := (fsWrite (serialize (l ++ [records i])) .success g.file).1,
        lock := none,
        tasks := fun j => if j = i then .doneOk else g.tasks j }
    else g
  | .doneOk => g
  | .doneErr => g

/-- Run a schedule: each entry lets the named task take one step. -/
def runSched (parse : List β → Option (List α)) (serialize : List α → List β)
    (records : Fin n → α) (g : GState β α n) (sched : List (Fin n)) : GState β α n :=
  sched.foldl (stepTask parse serialize records) g

/-- Initial state: the store file as it is, the lock free, every request
about to enter the locked section. -/
def initState (s0 : FileState β) (n : Nat) : GState β α n :=
  ⟨s0, none, fun _ => .ready⟩

/-! ### Invariant of the concurrent append -/

/-- Mutual-exclusion invariant: `done` lists the tasks whose append has
committed, in commit order; the file always parses to the initial entries
followed by the committed records; the lock holder is between its read and
its write, and its read saw exactly the committed sequence; everyone else is
either waiting or finished. -/
def Inv (parse : List β → Option (List α)) (records : Fin n → α) (l0 : List α)
    (g : GState β α n) : Prop :=
  ∃ done : List (Fin n), done.Nodup ∧
    (∀ i, g.tasks i = .doneOk ↔ i ∈ done) ∧
    readStep parse g.file = .ok (l0 ++ done.map records) ∧
    (g.lock = none →
      ∀ i, g.tasks i = .ready ∨ g.tasks i = .doneOk ∨ g.tasks i = .doneErr) ∧
    (∀ i, g.lock = some i →
      (g.tasks i = .acquired ∨ g.tasks i = .readDone (l0 ++ done.map records)) ∧
      ∀ j, j ≠ i → (g.tasks j = .ready ∨ g.tasks j = .doneOk ∨ g.tasks j = .doneErr))

/-- A configuration whose two field names are equal after trimming but
distinct as raw strings. -/
def trimDupCfg : AppConfig :=
  { json_output := none, form_title := [], submit_button := [],
    fields := [⟨"a ".toList, [], [], "text".toList, none, none, none⟩,
               ⟨"a".toList, [], [], "text".toList, none, none, none⟩] }

/-- The single declared field of the C6 scenario. -/
def q1Field : FieldDef := ⟨"q1".toList, [], [], "text".toList, none, none, none⟩


/-! ## Helper lemmas -/

theorem lookupA_insertA_self (k : Str) (v : β) (m : List (Str × β)) :
    lookupA k (insertA k v m) = some v := by
  induction m with
  | nil => simp [insertA, lookupA]
  | cons p rest ih =>
    obtain ⟨k', v'⟩ := p
    by_cases h : k' = k
    · subst h; simp [insertA, lookupA]
    · simp [insertA, lookupA, h, ih]

theorem lookupA_insertA_ne (k k' : Str) (v : β) (m : List (Str × β)) (h : k' ≠ k) :
    lookupA k (insertA k' v m) = lookupA k m := by
  induction m with
  | nil => simp [insertA, lookupA, h]
  | cons p rest ih =>
    obtain ⟨k₀, v₀⟩ := p
    by_cases h0 : k₀ = k'
    · subst h0; simp [insertA, lookupA, h]
    · simp [insertA, lookupA, h0, ih]

theorem lookupA_removeA (k k' : Str) (m : List (Str × β)) :
    lookupA k (removeA k' m) = if k = k' then none else lookupA k m := by
  induction m with
  | nil => simp [removeA, lookupA]
  | cons p rest ih =>
    obtain ⟨k₀, v₀⟩ := p
    by_cases h0 : k₀ = k'
    · subst h0
      by_cases hk : k = k₀
      · subst hk; simpa [removeA, lookupA] using ih
      · simpa [removeA, lookupA, Ne.symm hk, hk] using ih
    · by_cases hk : k₀ = k
      · subst hk
        simp [removeA, lookupA, h0, Ne.symm h0]
      · simpa [removeA, lookupA, h0, hk] using ih

theorem lookupA_eq_none_iff (k : Str) (m : List (Str × β)) :
    lookupA k m = none ↔ k ∉ m.map Prod.fst := by
  induction m with
  | nil => simp [lookupA]
  | cons p rest ih =>
    obtain ⟨k₀, v₀⟩ := p
    rw [lookupA, List.map_cons, List.mem_cons]
    by_cases h0 : k₀ = k
    · subst h0
      rw [if_pos rfl]
      constructor
      · intro h; cases h
      · intro h; exact absurd (Or.inl rfl) h
    · rw [if_neg h0, ih]
      constructor
      · intro h hmem
        rcases hmem with hk | hk
        · exact h0 hk.symm
        · exact h hk
      · intro h hk
        exact h (Or.inr hk)

theorem lookupA_some_mem (k : Str) (v : β) (m : List (Str × β))
    (h : lookupA k m = some v) : (k, v) ∈ m := by
  induction m with
  | nil => simp [lookupA] at h
  | cons p rest ih =>
    obtain ⟨k₀, v₀⟩ := p
    rw [lookupA] at h
    by_cases h0 : k₀ = k
    · rw [if_pos h0] at h
      obtain rfl : v₀ = v := Option.some.inj h
      subst h0
      exact List.mem_cons_self _ _
    · rw [if_neg h0] at h
      exact List.mem_cons_of_mem _ (ih h)

/-- Characterization of the validation loop: it succeeds exactly when every
trimmed name is non-empty, the (untrimmed) names are pairwise distinct, and
no name is already in the seen set. -/
theorem validateFields_ok_iff (fs : List FieldDef) : ∀ seen : List Str,
    validateFields seen fs = .ok () ↔
      ((∀ f ∈ fs, (trimStr f.name).isEmpty = false) ∧
       (fs.map FieldDef.name).Nodup ∧
       ∀ f ∈ fs, f.name ∉ seen) := by
  induction fs with
  | nil => intro seen; simp [validateFields]
  | cons f fs ih =>
    intro seen
    rw [validateFields]
    by_cases h1 : (trimStr f.name).isEmpty
    · simp only [if_pos h1]
      constructor
      · intro h; cases h
      · rintro ⟨hne, -, -⟩
        have := hne f (List.mem_cons_self f fs)
        rw [h1] at this; cases this
    · rw [if_neg h1]
      by_cases h2 : f.name ∈ seen
      · rw [if_pos h2]
        constructor
        · intro h; cases h
        · rintro ⟨-, -, hs⟩
          exact absurd h2 (hs f (List.mem_cons_self f fs))
      · rw [if_neg h2, ih (f.name :: seen)]
        constructor
        · rintro ⟨hne, hnd, hs⟩
          refine ⟨?_, ?_, ?_⟩
          · intro g hg
            rcases List.mem_cons.mp hg with rfl | hg
            · exact Bool.eq_false_iff.mpr h1
            · exact hne g hg
          · rw [List.map_cons, List.nodup_cons]
            refine ⟨?_, hnd⟩
            rintro hmem
            obtain ⟨g, hg, hgname⟩ := List.mem_map.mp hmem
            have := hs g hg
            rw [hgname] at this
            exact this (List.mem_cons_self _ _)
          · intro g hg
            rcases List.mem_cons.mp hg with rfl | hg
            · exact h2
            · intro hmem
              exact hs g hg (List.mem_cons_of_mem _ hmem)
        · rintro ⟨hne, hnd, hs⟩
          rw [List.map_cons, List.nodup_cons] at hnd
          refine ⟨fun g hg => hne g (List.mem_cons_of_mem _ hg), hnd.2, ?_⟩
          intro g hg
          rw [List.mem_cons]
          rintro (hgf | hgseen)
          · exact hnd.1 (List.mem_map.mpr ⟨g, hg, hgf⟩)
          · exact hs g (List.mem_cons_of_mem _ hg) hgseen

theorem processFields_fst_lookup_notname (fs : List FieldDef) :
    ∀ (form : List (Str × Str)) (acc : List (Str × Option Str)) (k : Str),
      k ∉ fs.map FieldDef.name →
      lookupA k (processFields fs form acc).1 = lookupA k acc := by
  induction fs with
  | nil => intro form acc k _; rfl
  | cons f fs ih =>
    intro form acc k hk
    rw [List.map_cons, List.mem_cons] at hk
    push_neg at hk
    rw [processFields, ih _ _ _ hk.2,
        lookupA_insertA_ne _ _ _ _ (Ne.symm hk.1)]

theorem processFields_snd_lookup (fs : List FieldDef) :
    ∀ (form : List (Str × Str)) (acc : List (Str × Option Str)) (k : Str),
      lookupA k (processFields fs form acc).2 =
        if k ∈ fs.map FieldDef.name then none else lookupA k form := by
  induction fs with
  | nil => intro form acc k; simp [processFields]
  | cons f fs ih =>
    intro form acc k
    rw [processFields, ih]
    by_cases h1 : k ∈ fs.map FieldDef.name
    · rw [if_pos h1, if_pos (by rw [List.map_cons]; exact List.mem_cons_of_mem _ h1)]
    · rw [if_neg h1, lookupA_removeA]
      by_cases h2 : k = f.name
      · rw [if_pos h2, if_pos (by rw [List.map_cons, h2]; exact List.mem_cons_self _ _)]
      · rw [if_neg h2, if_neg ?_]
        rw [List.map_cons, List.mem_cons]
        rintro (h | h)
        · exact h2 h
        · exact h1 h

theorem processFields_fst_lookup_field (fs : List FieldDef) :
    ∀ (form : List (Str × Str)) (acc : List (Str × Option Str)) (f : FieldDef),
      (fs.map FieldDef.name).Nodup → f ∈ fs →
      lookupA f.name (processFields fs form acc).1
        = some (normValue (lookupA f.name form)) := by
  induction fs with
  | nil => intro _ _ f _ hf; cases hf
  | cons g gs ih =>
    intro form acc f hnd hf
    rw [List.map_cons, List.nodup_cons] at hnd
    rw [processFields]
    rcases List.mem_cons.mp hf with rfl | hf
    · rw [processFields_fst_lookup_notname gs _ _ _ hnd.1, lookupA_insertA_self]
    · have hne : f.name ≠ g.name := by
        intro h
        exact hnd.1 (h ▸ List.mem_map.mpr ⟨f, hf, rfl⟩)
      rw [ih _ _ f hnd.2 hf, lookupA_removeA, if_neg hne]

theorem foldl_ins_lookup_notkey (rest : List (Str × Str)) :
    ∀ (acc : List (Str × Option Str)) (k : Str), k ∉ rest.map Prod.fst →
      lookupA k (rest.foldl (fun a kv => insertA kv.1 (normValue (some kv.2)) a) acc)
        = lookupA k acc := by
  induction rest with
  | nil => intro acc k _; rfl
  | cons kv rest ih =>
    intro acc k hk
    rw [List.map_cons, List.mem_cons] at hk
    push_neg at hk
    rw [List.foldl_cons, ih _ _ hk.2, lookupA_insertA_ne _ _ _ _ (Ne.symm hk.1)]

theorem foldl_ins_lookup_key (rest : List (Str × Str)) :
    ∀ (acc : List (Str × Option Str)) (k v : Str),
      (rest.map Prod.fst).Nodup → (k, v) ∈ rest →
      lookupA k (rest.foldl (fun a kv => insertA kv.1 (normValue (some kv.2)) a) acc)
        = some (normValue (some v)) := by
  induction rest with
  | nil => intro _ _ _ _ h; cases h
  | cons kv rest ih =>
    intro acc k v hnd hkv
    rw [List.map_cons, List.nodup_cons] at hnd
    rw [List.foldl_cons]
    rcases List.mem_cons.mp hkv with h | h
    · cases h.symm
      rw [foldl_ins_lookup_notkey _ _ _ hnd.1, lookupA_insertA_self]
    · exact ih _ _ _ hnd.2 h

theorem processFields_snd_sublist (fs : List FieldDef) :
    ∀ (form : List (Str × Str)) (acc : List (Str × Option Str)),
      ((processFields fs form acc).2).Sublist form := by
  induction fs with
  | nil => intro form acc; exact List.Sublist.refl form
  | cons f fs ih =>
    intro form acc
    exact (ih _ _).trans (List.filter_sublist form)

/-- The key fact about the `submit` normalizer: under the Form Definition's
name-uniqueness invariant and the raw map's key uniqueness, every raw pair
`(k, v)` ends up in the answer map at key `k` with the trimmed,
empty-filtered value — whether or not `k` is a declared field name. -/
theorem normalize_lookup (fields : List FieldDef) (form : List (Str × Str))
    (hnd : (fields.map FieldDef.name).Nodup) (hm : (form.map Prod.fst).Nodup)
    (k v : Str) (hkv : lookupA k form = some v) :
    lookupA k (normalizeAnswers fields form) = some (normValue (some v)) := by
  rw [normalizeAnswers]
  by_cases hk : k ∈ fields.map FieldDef.name
  · obtain ⟨f, hf, rfl⟩ := List.mem_map.mp hk
    have hrest : lookupA f.name (processFields fields form []).2 = none := by
      rw [processFields_snd_lookup, if_pos hk]
    have hnotmem : f.name ∉ ((processFields fields form []).2).map Prod.fst :=
      (lookupA_eq_none_iff _ _).mp hrest
    rw [foldl_ins_lookup_notkey _ _ _ hnotmem,
        processFields_fst_lookup_field fields form [] f hnd hf, hkv]
  · have hrest : lookupA k (processFields fields form []).2 = some v := by
      rw [processFields_snd_lookup, if_neg hk]; exact hkv
    have hmem := lookupA_some_mem _ _ _ hrest
    have hsub := (processFields_snd_sublist fields form []).map Prod.fst
    exact foldl_ins_lookup_key _ _ _ _ (hm.sublist hsub) hmem

theorem stepTask_ready_none (parse : List β → Option (List α))
    (serialize : List α → List β) (records : Fin n → α) (g : GState β α n) (i : Fin n)
    (h1 : g.tasks i = .ready) (h2 : g.lock = none) :
    stepTask parse serialize records g i =
      { g with lock := some i,
               tasks := fun j => if j = i then .acquired else g.tasks j } := by
  simp only [stepTask, h1, h2]

theorem stepTask_ready_some (parse : List β → Option (List α))
    (serialize : List α → List β) (records : Fin n → α) (g : GState β α n) (i : Fin n)
    (j : Fin n) (h1 : g.tasks i = .ready) (h2 : g.lock = some j) :
    stepTask parse serialize records g i = g := by
  simp only [stepTask, h1, h2]

theorem stepTask_acquired_ok (parse : List β → Option (List α))
    (serialize : List α → List β) (records : Fin n → α) (g : GState β α n) (i : Fin n)
    (l : List α) (h1 : g.tasks i = .acquired) (h2 : g.lock = some i)
    (h3 : readStep parse g.file = .ok l) :
    stepTask parse serialize records g i =
      { g with tasks := fun j => if j = i then .readDone l else g.tasks j } := by
  simp only [stepTask, h1, h2, h3, if_pos rfl, if_true]

theorem stepTask_readDone (parse : List β → Option (List α))
    (serialize : List α → List β) (records : Fin n → α) (g : GState β α n) (i : Fin n)
    (l : List α) (h1 : g.tasks i = .readDone l) (h2 : g.lock = some i) :
    stepTask parse serialize records g i =
      { file := .content (serialize (l ++ [records i])),
        lock := none,
        tasks := fun j => if j = i then .doneOk else g.tasks j } := by
  simp only [stepTask, h1, h2, if_pos rfl, fsWrite, if_true]

theorem stepTask_doneOk (parse : List β → Option (List α))
    (serialize : List α → List β) (records : Fin n → α) (g : GState β α n) (i : Fin n)
    (h1 : g.tasks i = .doneOk) :
    stepTask parse serialize records g i = g := by
  simp only [stepTask, h1]

theorem stepTask_doneErr (parse : List β → Option (List α))
    (serialize : List α → List β) (records : Fin n → α) (g : GState β α n) (i : Fin n)
    (h1 : g.tasks i = .doneErr) :
    stepTask parse serialize records g i = g := by
  simp only [stepTask, h1]

/-- One scheduled step preserves the mutual-exclusion invariant. -/
theorem stepTask_inv (parse : List β → Option (List α)) (serialize : List α → List β)
    (records : Fin n → α) (l0 : List α)
    (hrt : ∀ l : List α, parse (serialize l) = some l)
    (g : GState β α n) (i : Fin n) (h : Inv parse records l0 g) :
    Inv parse records l0 (stepTask parse serialize records g i) := by
  obtain ⟨done, hnd, hdone, hfile, hfree, hheld⟩ := h
  cases hti : g.tasks i with
  | ready =>
    cases hl : g.lock with
    | none =>
      rw [stepTask_ready_none parse serialize records g i hti hl]
      refine ⟨done, hnd, ?_, hfile, ?_, ?_⟩
      · intro j
        by_cases hj : j = i
        · subst hj
          simp only [if_pos rfl]
          constructor
          · intro hc; cases hc
          · intro hm
            have := (hdone j).mpr hm
            rw [hti] at this; cases this
        · simpa only [if_neg hj] using hdone j
      · intro hc; cases hc
      · intro i' he
        obtain rfl : i = i' := Option.some.inj he
        constructor
        · exact Or.inl (by simp)
        · intro j hj
          simp only [if_neg hj]
          exact hfree hl j
    | some j =>
      rw [stepTask_ready_some parse serialize records g i j hti hl]
      exact ⟨done, hnd, hdone, hfile, hfree, hheld⟩
  | acquired =>
    have hl : g.lock = some i := by
      cases hl0 : g.lock with
      | none =>
        rcases hfree hl0 i with h | h | h <;> rw [hti] at h <;> cases h
      | some j =>
        by_cases hj : j = i
        · rw [hj]
        · have hij : i ≠ j := fun e => hj e.symm
          rcases (hheld j hl0).2 i hij with h | h | h <;> rw [hti] at h <;> cases h
    rw [stepTask_acquired_ok parse serialize records g i _ hti hl hfile]
    refine ⟨done, hnd, ?_, hfile, ?_, ?_⟩
    · intro j
      by_cases hj : j = i
      · subst hj
        simp only [if_pos rfl]
        constructor
        · intro hc; cases hc
        · intro hm
          have := (hdone j).mpr hm
          rw [hti] at this; cases this
      · simpa only [if_neg hj] using hdone j
    · intro hc
      rw [hl] at hc; cases hc
    · intro i' he
      have : some i = some i' := hl ▸ he
      obtain rfl : i = i' := Option.some.inj this
      constructor
      · exact Or.inr (by simp)
      · intro j hj
        simp only [if_neg hj]
        exact (hheld i hl).2 j hj
  | readDone l =>
    have hl : g.lock = some i := by
      cases hl0 : g.lock with
      | none =>
        rcases hfree hl0 i with h | h | h <;> rw [hti] at h <;> cases h
      | some j =>
        by_cases hj : j = i
        · rw [hj]
        · have hij : i ≠ j := fun e => hj e.symm
          rcases (hheld j hl0).2 i hij with h | h | h <;> rw [hti] at h <;> cases h
    have hli : l = l0 ++ done.map records := by
      rcases (hheld i hl).1 with h | h
      · rw [hti] at h; cases h
      · rw [hti] at h
        exact Phase.readDone.inj h
    have hidone : i ∉ done := by
      intro hm
      have := (hdone i).mpr hm
      rw [hti] at this; cases this
    rw [stepTask_readDone parse serialize records g i l hti hl]
    refine ⟨done ++ [i], ?_, ?_, ?_, ?_, ?_⟩
    · rw [List.nodup_append]
      refine ⟨hnd, List.nodup_singleton i, ?_⟩
      intro a ha hb
      rw [List.mem_singleton] at hb
      subst hb
      exact hidone ha
    · intro j
      by_cases hj : j = i
      · subst hj
        simp only [if_pos rfl]
        constructor
        · intro _
          exact List.mem_append.mpr (Or.inr (List.mem_singleton.mpr rfl))
        · intro _; rfl
      · simp only [if_neg hj]
        rw [hdone j, List.mem_append, List.mem_singleton]
        constructor
        · exact Or.inl
        · rintro (hm | hm)
          · exact hm
          · exact absurd hm hj
    · show readStep parse (.content (serialize (l ++ [records i]))) = _
      rw [readStep, hrt]
      rw [hli, List.map_append]
      simp only [List.map_cons, List.map_nil, Option.getD_some, List.append_assoc]
    · intro _ j
      by_cases hj : j = i
      · subst hj
        exact Or.inr (Or.inl (by simp))
      · simp only [if_neg hj]
        exact (hheld i hl).2 j hj
    · intro i' he; cases he
  | doneOk =>
    rw [stepTask_doneOk parse serialize records g i hti]
    exact ⟨done, hnd, hdone, hfile, hfree, hheld⟩
  | doneErr =>
    rw [stepTask_doneErr parse serialize records g i hti]
    exact ⟨done, hnd, hdone, hfile, hfree, hheld⟩

/-- Every schedule preserves the invariant. -/
theorem runSched_inv (parse : List β → Option (List α)) (serialize : List α → List β)
    (records : Fin n → α) (l0 : List α)
    (hrt : ∀ l : List α, parse (serialize l) = some l)
    (sched : List (Fin n)) :
    ∀ g : GState β α n, Inv parse records l0 g →
      Inv parse records l0 (runSched parse serialize records g sched) := by
  induction sched with
  | nil => intro g h; exact h
  | cons s ss ih =>
    intro g h
    exact ih _ (stepTask_inv parse serialize records l0 hrt g s h)

/-- The invariant holds initially when the store file reads as `l0`. -/
theorem initState_inv (parse : List β → Option (List α)) (records : Fin n → α)
    (l0 : List α) (s0 : FileState β) (h0 : readStep parse s0 = .ok l0) :
    Inv parse records l0 (initState s0 n) := by
  refine ⟨[], List.nodup_nil, ?_, ?_, ?_, ?_⟩
  · intro i
    constructor
    · intro hc; cases hc
    · intro hm; cases hm
  · simpa using h0
  · intro _ i; exact Or.inl rfl
  · intro i' he; cases he

/-! ## Claim theorems -/

/-- C7: `resolveWidget` (`FieldDef::widget`) is a total, deterministic
function of the field: `"checkbox"` resolves to the boolean toggle,
`"textarea"` to multi-line text, `"select"` to a choice list populated from
`options` (the empty list when `options` is absent), and any other string to
a single-line input carrying that raw string as its sub-kind hint; no field
resolves to two widgets (the classification is a function) and the same
`answer_type` always yields the same widget kind. -/
theorem widget_total_classification (f : FieldDef) :
    (f.answer_type = "checkbox".toList → widget f = .Checkbox) ∧
    (f.answer_type = "textarea".toList → widget f = .Textarea) ∧
    (f.answer_type = "select".toList → widget f = .Select (f.options.getD [])) ∧
    (f.answer_type = "select".toList → f.options = none → widget f = .Select []) ∧
    (f.answer_type ≠ "checkbox".toList → f.answer_type ≠ "textarea".toList →
      f.answer_type ≠ "select".toList → widget f = .Input f.answer_type) ∧
    (∀ g : FieldDef, f.answer_type = g.answer_type →
      widgetKindIndex (widget f) = widgetKindIndex (widget g)) := by
  refine ⟨?_, ?_, ?_, ?_, ?_, ?_⟩
  · intro h
    rw [widget, if_pos h]
  · intro h
    rw [widget, if_neg (by rw [h]; decide), if_pos h]
  · intro h
    rw [widget, if_neg (by rw [h]; decide), if_neg (by rw [h]; decide), if_pos h]
  · intro h ho
    rw [widget, if_neg (by rw [h]; decide), if_neg (by rw [h]; decide), if_pos h, ho]
    rfl
  · intro h1 h2 h3
    rw [widget, if_neg h1, if_neg h2, if_neg h3]
  · intro g h
    rw [widget, widget, h]
    split_ifs <;> rfl

/-- Witness for C7 at two concrete fields. -/
theorem widget_total_classification_witness :
    widget ⟨"q".toList, [], [], "checkbox".toList, none, none, none⟩ = .Checkbox ∧
    widget ⟨"q".toList, [], [], "select".toList, none, none, none⟩ = .Select [] :=
  ⟨(widget_total_classification _).1 rfl,
   (widget_total_classification _).2.2.2.1 rfl rfl⟩

/-- C4: the read step of `appendSubmission`: a missing store file yields the
empty sequence; a readable file whose content fails to parse yields the empty
sequence without failing the operation; an unreadable file aborts the whole
operation with a store error, the file untouched, before any write. -/
theorem submit_read_step_cases (parse : List β → Option (List α))
    (serialize : List α → List β) (w : WriteOutcome) (entry : α) (raw : List β)
    (hbad : parse raw = none) :
    readStep parse (.absent : FileState β) = .ok ([] : List α) ∧
    readStep parse (.content raw) = .ok ([] : List α) ∧
    appendSubmission parse serialize w .unreadable entry
      = (.unreadable, .error .readError) := by
  refine ⟨rfl, ?_, rfl⟩
  rw [readStep, hbad]
  rfl

/-- Witness for C4 with a parser that rejects everything. -/
theorem submit_read_step_cases_witness :
    (fun _ : List Nat => (none : Option (List Nat))) [0] = none ∧
    (readStep (fun _ : List Nat => (none : Option (List Nat)))
        (.absent : FileState Nat) = .ok ([] : List Nat) ∧
     readStep (fun _ : List Nat => (none : Option (List Nat)))
        (.content [0]) = .ok ([] : List Nat) ∧
     appendSubmission (fun _ : List Nat => (none : Option (List Nat)))
        (fun l => l) .success .unreadable 5
       = (.unreadable, .error .readError)) :=
  ⟨rfl, submit_read_step_cases _ _ _ _ _ rfl⟩

/-- C2 is a code bug: `submit` reports a store error when the write fails,
but `std::fs::write` truncates the file in place before writing, so a write
that fails after truncation (e.g. on a full disk) leaves the file truncated
— not in its prior state.  Here a store holding one record is left empty by
a failed write, contradicting the claimed atomicity. -/
theorem submit_write_failure_truncates :
    appendSubmission (β := Nat) some (fun l => l) (.failAfter 0) (.content [7]) 8
      = (.content [], .error .writeError) ∧
    FileState.content ([] : List Nat) ≠ .content [7] :=
  ⟨rfl, by decide⟩

/-- C9: sequential appends preserve order: with no concurrency, two
successful `appendSubmission` calls with records `a` then `b` leave the store
holding the prior entries unchanged followed by `a` and then `b`. -/
theorem append_sequential_order (parse : List β → Option (List α))
    (serialize : List α → List β) (s0 : FileState β) (l : List α) (a b : α)
    (h0 : readStep parse s0 = .ok l)
    (h1 : parse (serialize (l ++ [a])) = some (l ++ [a]))
    (h2 : parse (serialize ((l ++ [a]) ++ [b])) = some ((l ++ [a]) ++ [b])) :
    (appendSubmission parse serialize .success s0 a).2 = .ok () ∧
    readStep parse (appendSubmission parse serialize .success s0 a).1
      = .ok (l ++ [a]) ∧
    (appendSubmission parse serialize .success
        (appendSubmission parse serialize .success s0 a).1 b).2 = .ok () ∧
    readStep parse (appendSubmission parse serialize .success
        (appendSubmission parse serialize .success s0 a).1 b).1
      = .ok ((l ++ [a]) ++ [b]) := by
  have e1 : appendSubmission parse serialize .success s0 a
      = (.content (serialize (l ++ [a])), .ok ()) := by
    rw [appendSubmission, h0]
    rfl
  have e2 : readStep parse (FileState.content (serialize (l ++ [a])))
      = .ok (l ++ [a]) := by
    rw [readStep, h1]
    rfl
  have e3 : appendSubmission parse serialize .success
      (FileState.content (serialize (l ++ [a]))) b
      = (.content (serialize ((l ++ [a]) ++ [b])), .ok ()) := by
    rw [appendSubmission, e2]
    rfl
  rw [e1, e3]
  refine ⟨rfl, e2, rfl, ?_⟩
  rw [readStep, h2]
  rfl

/-- Witness for C9 with the identity codec on `Nat` records. -/
theorem append_sequential_order_witness :
    (appendSubmission (β := Nat) some (fun l => l) .success .absent 0).2 = .ok () ∧
    readStep (β := Nat) some
      (appendSubmission (β := Nat) some (fun l => l) .success .absent 0).1
      = .ok ([] ++ [0]) ∧
    (appendSubmission (β := Nat) some (fun l => l) .success
        (appendSubmission (β := Nat) some (fun l => l) .success .absent 0).1 1).2
      = .ok () ∧
    readStep (β := Nat) some
      (appendSubmission (β := Nat) some (fun l => l) .success
        (appendSubmission (β := Nat) some (fun l => l) .success .absent 0).1 1).1
      = .ok (([] ++ [0]) ++ [1]) :=
  append_sequential_order some (fun l => l) .absent [] 0 1 rfl rfl rfl

/-- C3 counterexample: the claim says two fields whose identifiers are equal
after trimming are rejected, but the `seen` set of `load_config` stores the
untrimmed names — `"a "` and `"a"` trim to the same identifier yet validation
succeeds. -/
theorem validate_trimmed_duplicate_accepted :
    trimStr "a ".toList = trimStr "a".toList ∧
    validateConfig trimDupCfg = .ok trimDupCfg := by
  exact ⟨by decide, rfl⟩

/-- C3 (amended): duplicate detection compares identifiers exactly as
configured (untrimmed): every field list containing two fields with identical
raw identifiers fails validation with a ConfigError, and no partially
constructed Form is returned; trimming is used only for the emptiness check. -/
theorem validate_duplicate_name_fails (cfg : AppConfig)
    (hdup : ¬ (cfg.fields.map FieldDef.name).Nodup) :
    ∃ e, validateConfig cfg = .error e := by
  cases h : validateFields [] cfg.fields with
  | ok u =>
    cases u
    exact absurd ((validateFields_ok_iff cfg.fields []).mp h).2.1 hdup
  | error e =>
    refine ⟨e, ?_⟩
    rw [validateConfig, h]

/-- Witness for the amended C3 at a list with an exact duplicate name. -/
theorem validate_duplicate_name_fails_witness :
    ¬ ((AppConfig.fields ⟨none, [], [],
        [⟨"a".toList, [], [], "text".toList, none, none, none⟩,
         ⟨"a".toList, [], [], "text".toList, none, none, none⟩]⟩).map
        FieldDef.name).Nodup ∧
    ∃ e, validateConfig ⟨none, [], [],
        [⟨"a".toList, [], [], "text".toList, none, none, none⟩,
         ⟨"a".toList, [], [], "text".toList, none, none, none⟩]⟩ = .error e :=
  ⟨by decide, validate_duplicate_name_fails _ (by decide)⟩

/-- C8: for every field list with pairwise-distinct identifiers, all
non-empty after trimming, validation succeeds and returns the configuration
unchanged — the resulting Form's fields are exactly the input fields in input
order. -/
theorem validate_unique_nonempty_ok (cfg : AppConfig)
    (hne : ∀ f ∈ cfg.fields, trimStr f.name ≠ [])
    (hnd : (cfg.fields.map FieldDef.name).Nodup) :
    validateConfig cfg = .ok cfg := by
  have h : validateFields [] cfg.fields = .ok () := by
    rw [validateFields_ok_iff]
    refine ⟨?_, hnd, ?_⟩
    · intro f hf
      exact Bool.eq_false_iff.mpr (fun hb => hne f hf (List.isEmpty_iff.mp hb))
    · intro f _
      exact List.not_mem_nil f.name
  rw [validateConfig, h]

/-- Witness for C8 at a two-field configuration. -/
theorem validate_unique_nonempty_ok_witness :
    (∀ f ∈ (AppConfig.fields ⟨none, [], [],
        [⟨"a".toList, [], [], "text".toList, none, none, none⟩,
         ⟨"b".toList, [], [], "text".toList, none, none, none⟩]⟩),
      trimStr f.name ≠ []) ∧
    validateConfig ⟨none, [], [],
        [⟨"a".toList, [], [], "text".toList, none, none, none⟩,
         ⟨"b".toList, [], [], "text".toList, none, none, none⟩]⟩
      = .ok ⟨none, [], [],
        [⟨"a".toList, [], [], "text".toList, none, none, none⟩,
         ⟨"b".toList, [], [], "text".toList, none, none, none⟩]⟩ :=
  ⟨by decide, validate_unique_nonempty_ok _ (by decide) (by decide)⟩

/-- C5: `normalize` drops no data: under the Form Definition's uniqueness
invariant, every key of the raw mapping has an entry in the output answer map
— under the declared identifier when it matches a field (those are processed
first and consumed), under its raw key otherwise; in both cases the output
key is the raw key itself. -/
theorem normalize_preserves_raw_keys (fields : List FieldDef)
    (form : List (Str × Str)) (k : Str)
    (hnd : (fields.map FieldDef.name).Nodup)
    (hm : (form.map Prod.fst).Nodup)
    (hk : (lookupA k form).isSome = true) :
    (lookupA k (normalizeAnswers fields form)).isSome = true := by
  obtain ⟨v, hv⟩ := Option.isSome_iff_exists.mp hk
  rw [normalize_lookup fields form hnd hm k v hv]
  rfl

/-- Witness for C5: an undeclared key survives normalization. -/
theorem normalize_preserves_raw_keys_witness :
    (lookupA "extra".toList [("extra".toList, "hi".toList)]).isSome = true ∧
    (lookupA "extra".toList (normalizeAnswers
        [⟨"q1".toList, [], [], "text".toList, none, none, none⟩]
        [("extra".toList, "hi".toList)])).isSome = true :=
  ⟨by decide,
   normalize_preserves_raw_keys _ _ _ (by decide) (by decide) (by decide)⟩

/-- C6: for every raw key, declared or not, an empty or all-whitespace value
normalizes to an absent answer (never an empty string) and a non-empty value
is recorded trimmed; in particular `{"q1": "  ", "extra": "hi"}` against a
form declaring only `q1` normalizes to `{"q1": absent, "extra": "hi"}`. -/
theorem normalize_empty_value_absent (fields : List FieldDef)
    (form : List (Str × Str)) (k v : Str)
    (hnd : (fields.map FieldDef.name).Nodup)
    (hm : (form.map Prod.fst).Nodup)
    (hkv : lookupA k form = some v) :
    lookupA k (normalizeAnswers fields form)
      = some (if trimStr v = [] then none else some (trimStr v)) ∧
    normalizeAnswers [q1Field]
        [("q1".toList, "  ".toList), ("extra".toList, "hi".toList)]
      = [("q1".toList, none), ("extra".toList, some "hi".toList)] := by
  constructor
  · rw [normalize_lookup fields form hnd hm k v hkv]
    by_cases h : trimStr v = []
    · simp [normValue, h]
    · simp [normValue, h]
  · decide

/-- Witness for C6 on the spec's scenario, at both raw keys. -/
theorem normalize_empty_value_absent_witness :
    lookupA "q1".toList (normalizeAnswers [q1Field]
        [("q1".toList, "  ".toList), ("extra".toList, "hi".toList)])
      = some none ∧
    lookupA "extra".toList (normalizeAnswers [q1Field]
        [("q1".toList, "  ".toList), ("extra".toList, "hi".toList)])
      = some (some "hi".toList) := by
  constructor
  · exact ((normalize_empty_value_absent [q1Field]
      [("q1".toList, "  ".toList), ("extra".toList, "hi".toList)]
      "q1".toList "  ".toList (by decide) (by decide) (by decide)).1).trans
      (by decide)
  · exact ((normalize_empty_value_absent [q1Field]
      [("q1".toList, "  ".toList), ("extra".toList, "hi".toList)]
      "extra".toList "hi".toList (by decide) (by decide) (by decide)).1).trans
      (by decide)

/-- C10 (implicit): the Form stores each identifier exactly as configured
(untrimmed), and normalization keys declared answers by that untrimmed
identifier; a raw pair keyed by the trimmed name of a whitespace-padded field
does not match the field and is recorded under its raw (trimmed) key, so both
the untrimmed and the trimmed key appear in one answer mapping. -/
theorem untrimmed_identifier_mismatch (f : FieldDef) (v : Str) (cfg : AppConfig)
    (hws : trimStr f.name ≠ f.name) (hne : trimStr f.name ≠ [])
    (hcfg : cfg.fields = [f]) :
    validateConfig cfg = .ok cfg ∧
    normalizeAnswers [f] [(trimStr f.name, v)]
      = [(f.name, none), (trimStr f.name, normValue (some v))] := by
  constructor
  · have h : validateFields [] cfg.fields = .ok () := by
      rw [hcfg, validateFields_ok_iff]
      refine ⟨?_, by simp, ?_⟩
      · intro g hg
        rw [List.mem_singleton] at hg
        subst hg
        exact Bool.eq_false_iff.mpr (fun hb => hne (List.isEmpty_iff.mp hb))
      · intro g _
        exact List.not_mem_nil g.name
    rw [validateConfig, h]
  · have hA : lookupA f.name [(trimStr f.name, v)] = none := by
      rw [lookupA, if_neg hws]
      rfl
    have hB : removeA f.name [(trimStr f.name, v)] = [(trimStr f.name, v)] := by
      rw [removeA]
      simp [hws]
    simp only [normalizeAnswers, processFields, hA, hB, List.foldl_cons,
      List.foldl_nil]
    show insertA (trimStr f.name) (normValue (some v)) [(f.name, none)] = _
    rw [insertA, if_neg (Ne.symm hws)]
    rfl

/-- Witness for C10 with the field name `"q1 "` (trailing space) and the raw
key `"q1"`. -/
theorem untrimmed_identifier_mismatch_witness :
    (trimStr "q1 ".toList ≠ "q1 ".toList ∧ trimStr "q1 ".toList ≠ []) ∧
    (validateConfig ⟨none, [], [],
        [⟨"q1 ".toList, [], [], "text".toList, none, none, none⟩]⟩
      = .ok ⟨none, [], [],
        [⟨"q1 ".toList, [], [], "text".toList, none, none, none⟩]⟩ ∧
     normalizeAnswers [⟨"q1 ".toList, [], [], "text".toList, none, none, none⟩]
        [(trimStr "q1 ".toList, "hi".toList)]
      = [("q1 ".toList, none),
         (trimStr "q1 ".toList, normValue (some "hi".toList))]) :=
  ⟨⟨by decide, by decide⟩,
   untrimmed_identifier_mismatch _ "hi".toList _ (by decide) (by decide) rfl⟩

/-- C1: under the file lock's interleaving semantics, any schedule of `n`
concurrent `appendSubmission` calls (one record per task, every write
succeeding) that runs all tasks to completion leaves the store file holding
exactly the prior entries followed by the `n` new records in some total
order — none lost, none duplicated. -/
theorem submit_concurrent_appends (parse : List β → Option (List α))
    (serialize : List α → List β) (records : Fin n → α) (l0 : List α)
    (s0 : FileState β)
    (hrt : ∀ l : List α, parse (serialize l) = some l)
    (h0 : readStep parse s0 = .ok l0)
    (sched : List (Fin n))
    (hall : ∀ i, (runSched parse serialize records (initState s0 n) sched).tasks i
      = .doneOk) :
    ∃ done : List (Fin n), done.Perm (List.finRange n) ∧
      readStep parse (runSched parse serialize records (initState s0 n) sched).file
        = .ok (l0 ++ done.map records) := by
  obtain ⟨done, hnd, hdone, hfile, -, -⟩ :=
    runSched_inv parse serialize records l0 hrt sched _
      (initState_inv parse records l0 s0 h0)
  refine ⟨done, ?_, hfile⟩
  have hsub1 : done ⊆ List.finRange n := fun a _ => List.mem_finRange a
  have hsub2 : List.finRange n ⊆ done := fun a _ => (hdone a).mp (hall a)
  exact (List.subperm_of_subset hnd hsub1).antisymm
    (List.subperm_of_subset (List.nodup_finRange n) hsub2)

/-- Witness for C1: two concurrent submitters, identity codec, a completing
schedule. -/
theorem submit_concurrent_appends_witness :
    ∃ done : List (Fin 2), done.Perm (List.finRange 2) ∧
      readStep (β := Nat) some
        (runSched (β := Nat) some (fun l => l) (fun i : Fin 2 => (i : Nat) + 10)
          (initState .absent 2) [0, 0, 0, 1, 1, 1]).file
        = .ok ([] ++ done.map (fun i : Fin 2 => (i : Nat) + 10)) :=
  submit_concurrent_appends some (fun l => l) (fun i : Fin 2 => (i : Nat) + 10)
    [] .absent (fun _ => rfl) rfl [0, 0, 0, 1, 1, 1] (by decide)

end FormGen
